import Mathlib

/-!
# Verification of the Hybrid Vector Memory & Retrieval Engine

Shallow embedding of the chunking, sparse-vectorization, hybrid-score,
reinforcement and audit-trail logic of the Convolve repository
(`src/agents/embedding/agent.py`, `src/agents/memory/agent.py`,
`src/agents/feedback/agent.py`), together with proofs of the testable
properties stated in the specification.

Python machine floats are modelled by exact rationals (`ℚ`), except for the
L2-normalization claim which is stated over the reals. Python dicts are
modelled by insertion-ordered association lists, matching Python's
guaranteed dict iteration order. Python's string `hash` is salted per
process, so it is modelled by an arbitrary function parameter `h`.
-/

namespace Convolve

/-! ## Python string `split` (whitespace-delimited tokens, empties dropped) -/

/-- The whitespace characters recognised by Python `str.split()`:
space, tab, newline, carriage return, vertical tab, form feed. -/
def pyIsSpace (c : Char) : Bool :=
  c == ' ' || c == '\t' || c == '\n' || c == '\r' ||
    c == Char.ofNat 11 || c == Char.ofNat 12

/-- Accumulator-based splitter over the character list: runs of
non-whitespace characters become tokens, whitespace is dropped. -/
def splitWSAux : List Char → List Char → List (List Char)
  | [], acc => if acc.isEmpty then [] else [acc.reverse]
  | c :: cs, acc =>
      if pyIsSpace c then
        if acc.isEmpty then splitWSAux cs [] else acc.reverse :: splitWSAux cs []
      else
        splitWSAux cs (c :: acc)

/-- Model of Python `text.split()` (no separator argument): split on runs of
whitespace, discarding empty tokens. -/
def pySplit (s : String) : List String :=
  (splitWSAux s.data []).map (fun cs => String.mk cs)

/-- Model of Python `" ".join(words)`. -/
def joinWords (ws : List String) : String :=
  String.intercalate " " ws

/-! ## The chunker (`EmbeddingAgent.chunk_long_text`) -/

/-- One entry of the chunk dict list built by `chunk_long_text`:
`{"text": ..., "position": i, "chunk_id": f"chunk_{i}"}`. -/
structure PyChunk where
  text : String
  position : Nat
  chunk_id : String
deriving DecidableEq, Repr

/-- Model of the Python slice `l[start:stop]` for a non-negative `start`
(the loop variable of `chunk_long_text` is always non-negative): a
non-negative `stop` is clipped to the length, a negative `stop` counts
from the end. -/
def pySlice (l : List String) (start : Nat) (stop : Int) : List String :=
  let n := l.length
  let stopIdx : Nat := if stop < 0 then n - min n (-stop).toNat else min stop.toNat n
  (l.take stopIdx).drop start

/-- The chunk dict emitted by `chunk_long_text` at loop position `i`:
`{"text": " ".join(words[i:i+chunk_size]), "position": i, "chunk_id": f"chunk_{i}"}`. -/
def mkPyChunk (words : List String) (csize : Int) (i : Nat) : PyChunk :=
  { text := joinWords (pySlice words i ((i : Int) + csize)),
    position := i,
    chunk_id := "chunk_" ++ toString i }

/-- Fuel-driven body of the loop `for i in range(0, len(words), step)` of
`chunk_long_text`. Each iteration consumes at least one fuel unit, so fuel
`words.length - i` suffices for a positive `step` (`pyChunks_unfold`). -/
def pyChunksF (words : List String) (csize : Int) (step : Nat) :
    Nat → Nat → List PyChunk
  | 0, _ => []
  | fuel + 1, i =>
      if i < words.length ∧ 0 < step then
        mkPyChunk words csize i :: pyChunksF words csize step fuel (i + step)
      else []

/-- The loop `for i in range(0, len(words), step)` of `chunk_long_text`,
emitting at position `i` the chunk built from `words[i:i+chunk_size]`.
The `0 < step` guard matches Python `range`, whose caller only reaches
this loop with a positive step. -/
def pyChunks (words : List String) (csize : Int) (step : Nat) (i : Nat) :
    List PyChunk :=
  pyChunksF words csize step (words.length - i) i

/-- Model of `EmbeddingAgent.chunk_long_text(text, chunk_size, overlap)`.
The source performs no parameter validation; the behaviour on a
non-positive `range` step comes from Python's `range` itself:
`range(0, len, 0)` raises `ValueError` (modelled as `none`) and
`range(0, len, negative)` is empty, so the loop emits no chunks. -/
def chunkLongText (text : String) (chunk_size overlap : Int) :
    Option (List PyChunk) :=
  let words := pySplit text
  let step : Int := chunk_size - overlap
  if step = 0 then none
  else if step < 0 then some []
  else some (pyChunks words chunk_size step.toNat 0)

/-- Fuel-driven token-level view of the same loop: the token list of the
chunk emitted at position `i` is `words[i:i+csize]`, i.e.
`(words.drop i).take csize` for a natural `csize`. -/
def pyChunksTokF (words : List String) (csize step : Nat) :
    Nat → Nat → List (List String)
  | 0, _ => []
  | fuel + 1, i =>
      if i < words.length ∧ 0 < step then
        (words.drop i).take csize :: pyChunksTokF words csize step fuel (i + step)
      else []

/-- Token-level view of the chunking loop from position `i`. -/
def pyChunksTok (words : List String) (csize step i : Nat) :
    List (List String) :=
  pyChunksTokF words csize step (words.length - i) i

/-- The token lists of the chunks of `chunk_long_text text n k` for a valid
configuration `k < n`. -/
def chunkTokenLists (text : String) (n k : Nat) : List (List String) :=
  pyChunksTok (pySplit text) n (n - k) 0

/-! ## Loop unfolding lemmas -/

lemma pyChunksF_fuel_irrel (words : List String) (csize : Int) (step : Nat) :
    ∀ f₁ f₂ i, words.length - i ≤ f₁ → words.length - i ≤ f₂ →
      pyChunksF words csize step f₁ i = pyChunksF words csize step f₂ i := by
  intro f₁
  induction f₁ with
  | zero =>
    intro f₂ i h₁ h₂
    cases f₂ with
    | zero => rfl
    | succ f =>
      simp only [pyChunksF]
      rw [if_neg]
      rintro ⟨hlt, -⟩
      omega
  | succ f ih =>
    intro f₂ i h₁ h₂
    cases f₂ with
    | zero =>
      simp only [pyChunksF]
      rw [if_neg]
      rintro ⟨hlt, -⟩
      omega
    | succ f' =>
      simp only [pyChunksF]
      by_cases hc : i < words.length ∧ 0 < step
      · rw [if_pos hc, if_pos hc]
        exact congrArg _ (ih f' (i + step) (by omega) (by omega))
      · rw [if_neg hc, if_neg hc]

/-- The loop of `chunk_long_text` satisfies its defining recursion. -/
lemma pyChunks_unfold (words : List String) (csize : Int) (step i : Nat) :
    pyChunks words csize step i =
      if i < words.length ∧ 0 < step then
        mkPyChunk words csize i :: pyChunks words csize step (i + step)
      else [] := by
  unfold pyChunks
  cases hf : words.length - i with
  | zero =>
    simp only [pyChunksF]
    rw [if_neg]
    rintro ⟨hlt, -⟩
    omega
  | succ f =>
    simp only [pyChunksF]
    by_cases hc : i < words.length ∧ 0 < step
    · rw [if_pos hc, if_pos hc]
      exact congrArg _
        (pyChunksF_fuel_irrel words csize step f (words.length - (i + step))
          (i + step) (by omega) (by omega))
    · rw [if_neg hc, if_neg hc]

lemma pyChunksTokF_fuel_irrel (words : List String) (csize step : Nat) :
    ∀ f₁ f₂ i, words.length - i ≤ f₁ → words.length - i ≤ f₂ →
      pyChunksTokF words csize step f₁ i = pyChunksTokF words csize step f₂ i := by
  intro f₁
  induction f₁ with
  | zero =>
    intro f₂ i h₁ h₂
    cases f₂ with
    | zero => rfl
    | succ f =>
      simp only [pyChunksTokF]
      rw [if_neg]
      rintro ⟨hlt, -⟩
      omega
  | succ f ih =>
    intro f₂ i h₁ h₂
    cases f₂ with
    | zero =>
      simp only [pyChunksTokF]
      rw [if_neg]
      rintro ⟨hlt, -⟩
      omega
    | succ f' =>
      simp only [pyChunksTokF]
      by_cases hc : i < words.length ∧ 0 < step
      · rw [if_pos hc, if_pos hc]
        exact congrArg _ (ih f' (i + step) (by omega) (by omega))
      · rw [if_neg hc, if_neg hc]

/-- The token-level loop satisfies its defining recursion. -/
lemma pyChunksTok_unfold (words : List String) (csize step i : Nat) :
    pyChunksTok words csize step i =
      if i < words.length ∧ 0 < step then
        (words.drop i).take csize :: pyChunksTok words csize step (i + step)
      else [] := by
  unfold pyChunksTok
  cases hf : words.length - i with
  | zero =>
    simp only [pyChunksTokF]
    rw [if_neg]
    rintro ⟨hlt, -⟩
    omega
  | succ f =>
    simp only [pyChunksTokF]
    by_cases hc : i < words.length ∧ 0 < step
    · rw [if_pos hc, if_pos hc]
      exact congrArg _
        (pyChunksTokF_fuel_irrel words csize step f (words.length - (i + step))
          (i + step) (by omega) (by omega))
    · rw [if_neg hc, if_neg hc]

/-! ## Chunk reconstruction -/

/-- For a non-negative slice stop, the Python slice `words[i:i+n]` is
`(words.drop i).take n`. -/
lemma pySlice_eq_take_drop (l : List String) (i n : Nat) :
    pySlice l i ((i : Int) + (n : Int)) = (l.drop i).take n := by
  unfold pySlice
  have h0 : ¬((i : Int) + (n : Int) < 0) := by omega
  have h1 : ((i : Int) + (n : Int)).toNat = i + n := by omega
  simp only [if_neg h0, h1]
  have h2 : l.take (min (i + n) l.length) = l.take (i + n) := by
    rcases le_total (i + n) l.length with h | h
    · rw [min_eq_left h]
    · rw [min_eq_right h, List.take_length, List.take_of_length_le h]
  rw [h2, List.drop_take]
  congr 1
  omega

/-- The chunk texts are the space-joins of the token-level chunks. -/
lemma pyChunks_map_text (words : List String) (n step i : Nat) :
    (pyChunks words (n : Int) step i).map PyChunk.text
      = (pyChunksTok words n step i).map joinWords := by
  rw [pyChunks_unfold, pyChunksTok_unfold]
  by_cases hc : i < words.length ∧ 0 < step
  · rw [if_pos hc, if_pos hc]
    simp only [List.map_cons, mkPyChunk, pySlice_eq_take_drop]
    exact congrArg _ (pyChunks_map_text words n step (i + step))
  · rw [if_neg hc, if_neg hc]
    rfl
termination_by words.length - i
decreasing_by simp_wf; omega

/-- Key reconstruction invariant: from any position `i`, prepending the
first `k` tokens of the still-unchunked suffix to the concatenation of the
emitted chunks with their first `k` (overlap) tokens removed yields exactly
the suffix `words[i:]`. -/
lemma chunk_recon_aux (words : List String) (n k : Nat) (hk : k < n) (i : Nat) :
    (words.drop i).take k
      ++ ((pyChunksTok words n (n - k) i).map (List.drop k)).flatten
      = words.drop i := by
  rw [pyChunksTok_unfold]
  by_cases hc : i < words.length ∧ 0 < n - k
  · rw [if_pos hc]
    have ih := chunk_recon_aux words n k hk (i + (n - k))
    simp only [List.map_cons, List.flatten_cons]
    rw [← List.append_assoc]
    have htk : (words.drop i).take k = ((words.drop i).take n).take k := by
      rw [List.take_take, min_eq_left (le_of_lt hk)]
    rw [htk, List.take_append_drop]
    have hsplit : (words.drop i).take n
        = (words.drop i).take (n - k) ++ ((words.drop i).drop (n - k)).take k := by
      rw [← List.take_add]
      congr 1
      omega
    have hdd : (words.drop i).drop (n - k) = words.drop (i + (n - k)) :=
      List.drop_drop (n - k) i words
    rw [hsplit, List.append_assoc, hdd, ih, ← hdd, List.take_append_drop]
  · rw [if_neg hc]
    have hge : words.length ≤ i := by omega
    rw [List.drop_eq_nil_of_le hge]
    simp
termination_by words.length - i
decreasing_by simp_wf; omega

/-- Head form of the reconstruction invariant: the first chunk, followed by
every later chunk with its leading `k` overlap tokens removed, concatenates
back to the whole token list. -/
lemma chunk_recon_head (words : List String) (n k : Nat) (hk : k < n) :
    (pyChunksTok words n (n - k) 0).headD []
      ++ ((pyChunksTok words n (n - k) 0).tail.map (List.drop k)).flatten
      = words := by
  have haux := chunk_recon_aux words n k hk 0
  rw [pyChunksTok_unfold] at haux ⊢
  by_cases hc : 0 < words.length ∧ 0 < n - k
  · rw [if_pos hc] at haux ⊢
    simp only [List.drop_zero] at haux ⊢
    simp only [List.map_cons, List.flatten_cons, ← List.append_assoc] at haux
    have htk : words.take k = (words.take n).take k := by
      rw [List.take_take, min_eq_left (le_of_lt hk)]
    rw [htk, List.take_append_drop] at haux
    simpa using haux
  · rw [if_neg hc]
    have : words.length = 0 := by omega
    simp [List.eq_nil_of_length_eq_zero this]

/-- C4. For every text and every `chunk_size n`, `overlap k` with `k < n`:
the chunker splits the text on whitespace into tokens and emits the chunks
of the loop with step `n - k`, whose texts are the space-joins of the
token windows `words[i:i+n]`; and the emitted chunks with the `k`-token
overlaps removed reconstruct the original token sequence in order. -/
theorem chunker_reconstructs_tokens (text : String) (n k : Nat) (hk : k < n) :
    (chunkLongText text (n : Int) (k : Int)).map (List.map PyChunk.text)
        = some ((chunkTokenLists text n k).map joinWords)
    ∧ (chunkTokenLists text n k).headD []
        ++ ((chunkTokenLists text n k).tail.map (List.drop k)).flatten
        = pySplit text := by
  constructor
  · unfold chunkLongText
    have hne : ¬((n : Int) - (k : Int) = 0) := by omega
    have hneg : ¬((n : Int) - (k : Int) < 0) := by omega
    simp only [if_neg hne, if_neg hneg, Option.map_some']
    rw [Int.toNat_sub]
    exact congrArg some (pyChunks_map_text (pySplit text) n (n - k) 0)
  · exact chunk_recon_head (pySplit text) n k hk

/-- Witness for C4 at `text = "a b c"`, `chunk_size 2`, `overlap 1`. -/
theorem chunker_reconstructs_tokens_witness :
    (1 < 2)
    ∧ ((chunkLongText "a b c" (2 : Int) (1 : Int)).map (List.map PyChunk.text)
          = some ((chunkTokenLists "a b c" 2 1).map joinWords)
        ∧ (chunkTokenLists "a b c" 2 1).headD []
            ++ ((chunkTokenLists "a b c" 2 1).tail.map (List.drop 1)).flatten
            = pySplit "a b c") :=
  ⟨by decide, chunker_reconstructs_tokens "a b c" 2 1 (by decide)⟩

/-! ## Chunk counts (C8) and chunker configuration handling (C3) -/

/-- C8 counterexample: the whitespace-only text `" "` is a non-empty input,
yet the chunker (at its default parameters 512/100) succeeds with zero
chunks, because `text.split()` yields no tokens. -/
theorem chunk_count_counterexample :
    chunkLongText " " 512 100 = some [] ∧ " " ≠ "" := by
  constructor
  · decide
  · decide

/-- C8 (amended). At the default parameters (`chunk_size = 512`,
`overlap = 100`) the chunker produces at least one chunk for every input
whose whitespace token list is non-empty, and exactly zero chunks for every
input with no tokens — in particular for the empty input, whose token list
is empty. -/
theorem chunk_count (text : String) :
    (pySplit text ≠ [] →
        ∃ c cs, chunkLongText text 512 100 = some (c :: cs))
    ∧ (pySplit text = [] → chunkLongText text 512 100 = some []) := by
  constructor
  · intro h
    unfold chunkLongText
    rw [if_neg (by omega), if_neg (by omega)]
    rw [pyChunks_unfold, if_pos]
    · exact ⟨_, _, rfl⟩
    · exact ⟨List.length_pos.mpr h, by omega⟩
  · intro h
    unfold chunkLongText
    rw [if_neg (by omega), if_neg (by omega)]
    rw [pyChunks_unfold, if_neg]
    rintro ⟨hlt, -⟩
    rw [h] at hlt
    exact absurd hlt (by simp)

/-- Witness for C8 at the inputs `"a"` (one token) and `""` (no tokens). -/
theorem chunk_count_witness :
    (pySplit "a" ≠ [] ∧ ∃ c cs, chunkLongText "a" 512 100 = some (c :: cs))
    ∧ (pySplit "" = [] ∧ chunkLongText "" 512 100 = some []) :=
  ⟨⟨by decide, (chunk_count "a").1 (by decide)⟩,
   ⟨by decide, (chunk_count "").2 (by decide)⟩⟩

/-- C3 counterexample: `chunk_size = 5`, `overlap = 0` is a configuration
the claim requires to fail (the overlap is not a positive integer), yet the
chunker performs no validation and succeeds, producing a chunk. -/
theorem chunker_validation_counterexample :
    chunkLongText "a b" 5 0
        = some [{ text := "a b", position := 0, chunk_id := "chunk_0" }]
    ∧ ([{ text := "a b", position := 0, chunk_id := "chunk_0" }] :
        List PyChunk) ≠ [] := by
  constructor
  · decide
  · decide

/-- C3 (amended). The chunker performs no parameter validation and has no
`InvalidConfiguration` failure. Its behaviour is decided solely by the step
`chunk_size - overlap`: when the step is zero the call fails (Python's
`range` raises `ValueError`) and produces no chunks; when the step is
negative the call succeeds with zero chunks; when the step is positive the
call succeeds, even for non-positive `chunk_size` or `overlap`. -/
theorem chunker_validation (text : String) (cs ov : Int) :
    (cs - ov = 0 → chunkLongText text cs ov = none)
    ∧ (cs - ov < 0 → chunkLongText text cs ov = some [])
    ∧ (0 < cs - ov → (chunkLongText text cs ov).isSome = true) := by
  unfold chunkLongText
  refine ⟨fun h => ?_, fun h => ?_, fun h => ?_⟩
  · rw [if_pos h]
  · rw [if_neg (by omega), if_pos h]
  · rw [if_neg (by omega), if_neg (by omega)]
    rfl

/-- Witness for C3: a zero step fails, a negative step returns no chunks,
a positive step succeeds. -/
theorem chunker_validation_witness :
    chunkLongText "x" 3 3 = none
    ∧ chunkLongText "x" 2 5 = some []
    ∧ (chunkLongText "x" 5 2).isSome = true :=
  ⟨(chunker_validation "x" 3 3).1 (by decide),
   (chunker_validation "x" 2 5).2.1 (by decide),
   (chunker_validation "x" 5 2).2.2 (by decide)⟩

/-! ## Sparse embeddings (`EmbeddingAgent.create_sparse_embedding`) -/

/-- Model of Python `text.lower()`: lower-case every character. -/
def pyLower (s : String) : String := String.mk (s.data.map Char.toLower)

/-- The configured sparse dimension, `EmbeddingAgent.sparse_dimension`. -/
def sparseDimension : Nat := 512

/-- One step of `term_weights[term_id] = term_weights.get(term_id, 0) + 1`
on an insertion-ordered dict: increment in place if the key is present,
otherwise append the key with count 1. -/
def bump (l : List (Nat × Nat)) (key : Nat) : List (Nat × Nat) :=
  match l with
  | [] => [(key, 1)]
  | (k, v) :: rest =>
      if k = key then (k, v + 1) :: rest else (k, v) :: bump rest key

/-- The `term_weights` dict of `create_sparse_embedding`: each term is
hashed into a bucket `hash(term) % sparse_dimension` and counted. Python's
per-process string hash is the parameter `h`. -/
def termWeights (h : String → Nat) (terms : List String) : List (Nat × Nat) :=
  terms.foldl (fun acc t => bump acc (h t % sparseDimension)) []

/-- Model of `EmbeddingAgent.create_sparse_embedding`: tokenize the
lower-cased text, count terms per hash bucket, then normalize each count by
the document length (`weight / doc_len if doc_len > 0 else 0`). -/
def createSparseEmbedding (h : String → Nat) (text : String) :
    List (Nat × ℚ) :=
  let terms := pySplit (pyLower text)
  let docLen := terms.length
  (termWeights h terms).map
    (fun p => (p.1, if 0 < docLen then (p.2 : ℚ) / (docLen : ℚ) else 0))

/-- Total count stored in a bucket-count dict. -/
def sumSnd (l : List (Nat × Nat)) : Nat := (l.map Prod.snd).sum

lemma sumSnd_bump (l : List (Nat × Nat)) (key : Nat) :
    sumSnd (bump l key) = sumSnd l + 1 := by
  induction l with
  | nil => rfl
  | cons p rest ih =>
    obtain ⟨k, v⟩ := p
    simp only [bump]
    by_cases hkey : k = key
    · simp [sumSnd, if_pos hkey]
      omega
    · simp only [if_neg hkey]
      simp [sumSnd] at ih ⊢
      omega

lemma sumSnd_foldl (h : String → Nat) (ts : List String) :
    ∀ acc : List (Nat × Nat),
      sumSnd (ts.foldl (fun acc t => bump acc (h t % sparseDimension)) acc)
        = sumSnd acc + ts.length := by
  induction ts with
  | nil => intro acc; simp
  | cons t rest ih =>
    intro acc
    simp only [List.foldl_cons, List.length_cons]
    rw [ih, sumSnd_bump]
    omega

/-- The bucket counts sum to the number of terms. -/
lemma sumSnd_termWeights (h : String → Nat) (ts : List String) :
    sumSnd (termWeights h ts) = ts.length := by
  unfold termWeights
  rw [sumSnd_foldl]
  simp [sumSnd]

lemma bump_pos (l : List (Nat × Nat)) (key : Nat)
    (hl : ∀ p ∈ l, 0 < p.2) : ∀ p ∈ bump l key, 0 < p.2 := by
  induction l with
  | nil =>
    intro p hp
    simp [bump] at hp
    subst hp
    simp
  | cons q rest ih =>
    obtain ⟨k, v⟩ := q
    intro p hp
    simp only [bump] at hp
    by_cases hkey : k = key
    · rw [if_pos hkey] at hp
      rcases List.mem_cons.mp hp with h1 | h1
      · subst h1; simp
      · exact hl p (List.mem_cons_of_mem _ h1)
    · rw [if_neg hkey] at hp
      rcases List.mem_cons.mp hp with h1 | h1
      · subst h1
        exact hl (k, v) (List.mem_cons_self _ _)
      · exact ih (fun q hq => hl q (List.mem_cons_of_mem _ hq)) p h1

/-- Every bucket count in `term_weights` is strictly positive. -/
lemma termWeights_pos (h : String → Nat) (ts : List String) :
    ∀ p ∈ termWeights h ts, 0 < p.2 := by
  unfold termWeights
  suffices hgen : ∀ acc : List (Nat × Nat), (∀ p ∈ acc, 0 < p.2) →
      ∀ p ∈ ts.foldl (fun acc t => bump acc (h t % sparseDimension)) acc,
        0 < p.2 by
    exact hgen [] (by simp)
  induction ts with
  | nil => intro acc hacc; simpa using hacc
  | cons t rest ih =>
    intro acc hacc
    simp only [List.foldl_cons]
    exact ih _ (bump_pos acc _ hacc)

lemma bump_keys {P : Nat → Prop} (l : List (Nat × Nat)) (key : Nat)
    (hl : ∀ p ∈ l, P p.1) (hkey : P key) : ∀ p ∈ bump l key, P p.1 := by
  induction l with
  | nil =>
    intro p hp
    simp [bump] at hp
    subst hp
    exact hkey
  | cons q rest ih =>
    obtain ⟨k, v⟩ := q
    intro p hp
    simp only [bump] at hp
    by_cases hk : k = key
    · rw [if_pos hk] at hp
      rcases List.mem_cons.mp hp with h1 | h1
      · subst h1
        exact hl (k, v) (List.mem_cons_self _ _)
      · exact hl p (List.mem_cons_of_mem _ h1)
    · rw [if_neg hk] at hp
      rcases List.mem_cons.mp hp with h1 | h1
      · subst h1
        exact hl (k, v) (List.mem_cons_self _ _)
      · exact ih (fun q hq => hl q (List.mem_cons_of_mem _ hq)) p h1

lemma foldl_bump_keys {P : Nat → Prop} (h : String → Nat) :
    ∀ (ts : List String) (acc : List (Nat × Nat)),
      (∀ p ∈ acc, P p.1) → (∀ t ∈ ts, P (h t % sparseDimension)) →
      ∀ p ∈ ts.foldl (fun acc t => bump acc (h t % sparseDimension)) acc,
        P p.1 := by
  intro ts
  induction ts with
  | nil => intro acc hacc _; simpa using hacc
  | cons t rest ih =>
    intro acc hacc hts
    simp only [List.foldl_cons]
    exact ih _ (bump_keys acc _ hacc (hts t (List.mem_cons_self _ _)))
      (fun u hu => hts u (List.mem_cons_of_mem _ hu))

/-- Every key of `term_weights` is the bucket of one of the terms. -/
lemma termWeights_keys (h : String → Nat) (ts : List String) :
    ∀ p ∈ termWeights h ts, ∃ t ∈ ts, p.1 = h t % sparseDimension := by
  unfold termWeights
  exact foldl_bump_keys
    (P := fun key => ∃ t ∈ ts, key = h t % sparseDimension) h ts []
    (by simp) (fun t ht => ⟨t, ht, rfl⟩)

/-- Each individual bucket count is at most the total. -/
lemma snd_le_sumSnd (l : List (Nat × Nat)) (p : Nat × Nat) (hp : p ∈ l) :
    p.2 ≤ sumSnd l := by
  induction l with
  | nil => cases hp
  | cons q rest ih =>
    rcases List.mem_cons.mp hp with h1 | h1
    · subst h1
      simp [sumSnd]
    · have := ih h1
      simp [sumSnd] at this ⊢
      omega

/-! ## Sparse embedding theorems (C5, C10) -/

/-- A concrete stand-in for one possible per-process Python string hash. -/
def constHash : String → Nat := fun _ => 0

/-- C5. For every hash function and every input text, each stored bucket of
the sparse embedding carries a weight in `[0, 1]` and is the bucket
`hash(term) % sparse_dimension` of one of the whitespace tokens of the
lower-cased text (hence below the sparse dimension); and the empty input
yields an empty sparse vector rather than failing. -/
theorem sparse_embedding_weights (h : String → Nat) (text : String) :
    (∀ p ∈ createSparseEmbedding h text,
        (0 ≤ p.2 ∧ p.2 ≤ 1)
        ∧ ∃ t ∈ pySplit (pyLower text),
            p.1 = h t % sparseDimension ∧ p.1 < sparseDimension)
    ∧ createSparseEmbedding h "" = [] := by
  constructor
  · intro p hp
    unfold createSparseEmbedding at hp
    rcases List.mem_map.mp hp with ⟨q, hq, hpq⟩
    cases hterms : pySplit (pyLower text) with
    | nil =>
      rw [hterms] at hq
      simp [termWeights] at hq
    | cons t0 rest =>
      rw [hterms] at hq
      have hlen : 0 < (t0 :: rest).length := by simp
      subst hpq
      rw [hterms] at hp ⊢
      constructor
      · constructor
        · simp only [if_pos hlen]
          positivity
        · simp only [if_pos hlen]
          rw [div_le_one (by exact_mod_cast hlen)]
          exact_mod_cast snd_le_sumSnd _ q hq |>.trans_eq
            (sumSnd_termWeights h (t0 :: rest))
      · rcases termWeights_keys h (t0 :: rest) q hq with ⟨t, ht, hkey⟩
        exact ⟨t, ht, hkey, hkey ▸ Nat.mod_lt _ (by norm_num [sparseDimension])⟩
  · rfl

/-- Witness for C5 at the hash `constHash` and the text `"A b"`: the single
stored bucket is `(0, 1)`, with weight `1 ∈ [0, 1]` and bucket
`constHash "a" % 512 = 0 < 512`. -/
theorem sparse_embedding_weights_witness :
    ((0, (1 : ℚ)) ∈ createSparseEmbedding constHash "A b")
    ∧ (((0 : ℚ) ≤ ((0, (1 : ℚ)) : Nat × ℚ).2
          ∧ ((0, (1 : ℚ)) : Nat × ℚ).2 ≤ 1)
        ∧ ∃ t ∈ pySplit (pyLower "A b"),
            ((0, (1 : ℚ)) : Nat × ℚ).1 = constHash t % sparseDimension
            ∧ ((0, (1 : ℚ)) : Nat × ℚ).1 < sparseDimension) := by
  have hterms : pySplit (pyLower "A b") = ["a", "b"] := by decide
  have hlist : createSparseEmbedding constHash "A b" = [(0, 1)] := by
    unfold createSparseEmbedding
    rw [hterms]
    simp only [termWeights, List.foldl_cons, List.foldl_nil, bump, constHash,
      List.map_cons, List.map_nil, List.length_cons, List.length_nil]
    norm_num
  have hmem : ((0, (1 : ℚ)) ∈ createSparseEmbedding constHash "A b") := by
    rw [hlist]
    exact List.mem_singleton.mpr rfl
  exact ⟨hmem, (sparse_embedding_weights constHash "A b").1 (0, 1) hmem⟩

/-- C10 counterexample: `" "` is a non-empty input text, but its sparse
embedding is empty, so the stored weights sum to `0`, not `1`. -/
theorem sparse_sum_counterexample :
    createSparseEmbedding constHash " " = []
    ∧ ((createSparseEmbedding constHash " ").map Prod.snd).sum = (0 : ℚ)
    ∧ ((0 : ℚ) ≠ 1)
    ∧ " " ≠ "" := by
  refine ⟨by decide, by decide, by norm_num, by decide⟩

lemma sum_map_div (l : List (Nat × Nat)) (L : ℚ) :
    (l.map (fun q => ((q.2 : ℚ) / L))).sum = (sumSnd l : ℚ) / L := by
  induction l with
  | nil => simp [sumSnd]
  | cons q rest ih =>
    simp only [List.map_cons, List.sum_cons, ih, sumSnd, List.map_cons,
      List.sum_cons]
    push_cast
    ring

/-- C10 (amended). For every input text whose lower-cased whitespace token
list is non-empty, the stored bucket weights of the sparse embedding are
each strictly positive and sum to exactly `1` (in the exact-rational model
of Python float arithmetic): each of the `doc_len` tokens contributes
`1/doc_len` to exactly one bucket. -/
theorem sparse_sum_one (h : String → Nat) (text : String)
    (hne : pySplit (pyLower text) ≠ []) :
    (∀ p ∈ createSparseEmbedding h text, 0 < p.2)
    ∧ ((createSparseEmbedding h text).map Prod.snd).sum = 1 := by
  have hlen : 0 < (pySplit (pyLower text)).length := List.length_pos.mpr hne
  constructor
  · intro p hp
    unfold createSparseEmbedding at hp
    rcases List.mem_map.mp hp with ⟨q, hq, hpq⟩
    subst hpq
    simp only [if_pos hlen]
    have hqpos : 0 < q.2 := termWeights_pos h _ q hq
    positivity
  · unfold createSparseEmbedding
    rw [List.map_map]
    have hcomp :
        (Prod.snd ∘ fun p : Nat × Nat =>
            ((p.1, if 0 < (pySplit (pyLower text)).length then
                (p.2 : ℚ) / ((pySplit (pyLower text)).length : ℚ)
              else 0) : Nat × ℚ))
          = fun q : Nat × Nat =>
              ((q.2 : ℚ) / ((pySplit (pyLower text)).length : ℚ)) := by
      funext q
      simp [if_pos hlen]
    rw [hcomp, sum_map_div, sumSnd_termWeights]
    exact div_self (by exact_mod_cast hlen.ne.symm)

/-- Witness for C10 at the hash `constHash` and the text `"a b"`. -/
theorem sparse_sum_one_witness :
    (∀ p ∈ createSparseEmbedding constHash "a b", 0 < p.2)
    ∧ ((createSparseEmbedding constHash "a b").map Prod.snd).sum = 1 :=
  sparse_sum_one constHash "a b" (by decide)

/-! ## Dense embedding L2 normalization (C7) -/

/-- Model of `np.linalg.norm(v)`: the Euclidean norm of the vector. -/
noncomputable def l2norm (v : List ℝ) : ℝ :=
  Real.sqrt (v.map (fun x => x ^ 2)).sum

/-- Model of the normalization step of `create_dense_embedding`:
`[x / norm for x in dense_embedding]`. The random raw vector is modelled as
an arbitrary real vector; a zero norm raises `ZeroDivisionError` in the
source, which lands in the `except` branch, so a successfully produced
vector has a nonzero raw norm. -/
noncomputable def normalizeL2 (v : List ℝ) : List ℝ :=
  v.map (fun x => x / l2norm v)

lemma sum_map_div_real (l : List ℝ) (f : ℝ → ℝ) (c : ℝ) :
    (l.map (fun x => f x / c)).sum = (l.map f).sum / c := by
  induction l with
  | nil => simp
  | cons x xs ih =>
    simp only [List.map_cons, List.sum_cons, ih]
    rw [add_div]

/-- C7. Every dense vector successfully produced by the vectorizer (i.e.
whose raw vector has nonzero norm, so that the division does not raise) has
L2 norm exactly `1` in the exact-real model, hence within the `1e-4`
tolerance of `1`. -/
theorem dense_norm_one (v : List ℝ) (h : l2norm v ≠ 0) :
    l2norm (normalizeL2 v) = 1
    ∧ |l2norm (normalizeL2 v) - 1| ≤ 1 / 10000 := by
  have hS : 0 ≤ (v.map (fun x => x ^ 2)).sum := by
    apply List.sum_nonneg
    intro x hx
    rcases List.mem_map.mp hx with ⟨y, -, rfl⟩
    positivity
  have hsq : l2norm v ^ 2 = (v.map (fun x => x ^ 2)).sum := Real.sq_sqrt hS
  have hone : l2norm (normalizeL2 v) = 1 := by
    unfold l2norm normalizeL2
    rw [List.map_map]
    have hmap : ((fun x => x ^ 2) ∘ fun x => x / l2norm v)
        = fun x => x ^ 2 / l2norm v ^ 2 := by
      funext x
      simp [div_pow]
    rw [hmap, sum_map_div_real, ← hsq, div_self (pow_ne_zero 2 h),
      Real.sqrt_one]
  exact ⟨hone, by rw [hone]; norm_num⟩

/-- Witness for C7 at the raw vector `[3, 4]`, whose norm is `5 ≠ 0`. -/
theorem dense_norm_one_witness :
    l2norm [(3 : ℝ), 4] ≠ 0 ∧ l2norm (normalizeL2 [(3 : ℝ), 4]) = 1 := by
  have h5 : l2norm [(3 : ℝ), 4] = 5 := by
    unfold l2norm
    have : (([(3 : ℝ), 4]).map (fun x => x ^ 2)).sum = 25 := by norm_num
    rw [this, show (25 : ℝ) = 5 ^ 2 by norm_num, Real.sqrt_sq (by norm_num)]
  have hne : l2norm [(3 : ℝ), 4] ≠ 0 := by rw [h5]; norm_num
  exact ⟨hne, (dense_norm_one [(3 : ℝ), 4] hne).1⟩

/-! ## Hybrid score fusion (C1) -/

/-- The dense weight recorded by `MemoryAgent.hybrid_search` in its
`search_result` (`"dense_weight": 0.6`). -/
def hybridDenseWeight : ℚ := 6 / 10

/-- The sparse weight recorded by `MemoryAgent.hybrid_search`
(`"sparse_weight": 0.4`). -/
def hybridSparseWeight : ℚ := 4 / 10

/-- Modelled from the spec: the score fusion of the Hybrid Query Engine,
`combined = w_dense * dense_score + w_sparse * sparse_score` (§4.4). The
candidate scoring itself is executed by the external vector database in
production; `MemoryAgent.hybrid_search` in the source only records the
weights and returns an empty result list, so the fusion arithmetic is
modelled from the spec with the weights taken from the source. -/
def combinedScore (wDense wSparse denseScore sparseScore : ℚ) : ℚ :=
  wDense * denseScore + wSparse * sparseScore

/-- Modelled from the spec: the confidence multiplier
`0.5 + 0.5 * record.confidence` of the Hybrid Query Engine (§4.4); it has
no counterpart in the source, which never computes candidate scores. -/
def confidenceMultiplier (confidence : ℚ) : ℚ :=
  1 / 2 + 1 / 2 * confidence

/-- Modelled from the spec: the final score
`combined * (0.5 + 0.5 * record.confidence)` (§4.4). -/
def finalScore (wDense wSparse denseScore sparseScore confidence : ℚ) : ℚ :=
  combinedScore wDense wSparse denseScore sparseScore
    * confidenceMultiplier confidence

/-- C1. With the source's weights `0.6/0.4` (which sum to `1`), every
candidate's combined score is `0.6 * dense + 0.4 * sparse` and its final
score is the combined score times `0.5 + 0.5 * confidence`; in particular
`dense = 1`, `sparse = 0`, `confidence = 0.5` scores `0.45`. -/
theorem hybrid_fusion_score :
    (∀ ds ss conf : ℚ,
        finalScore hybridDenseWeight hybridSparseWeight ds ss conf
          = (6 / 10 * ds + 4 / 10 * ss) * (1 / 2 + 1 / 2 * conf))
    ∧ hybridDenseWeight + hybridSparseWeight = 1
    ∧ finalScore hybridDenseWeight hybridSparseWeight 1 0 (1 / 2)
        = 45 / 100 := by
  refine ⟨fun ds ss conf => rfl, by norm_num [hybridDenseWeight, hybridSparseWeight], ?_⟩
  unfold finalScore combinedScore confidenceMultiplier hybridDenseWeight
    hybridSparseWeight
  norm_num

/-! ## Feedback reinforcement (C2) -/

/-- The feedback outcomes of `utils.models.FeedbackType` (the module is
referenced but absent from the source tree; its members
`CORRECT`/`PARTIAL`/`WRONG` and their lower-case string values are fixed by
their uses in the feedback agent). `PARTIAL` is rendered `partialCorrect`
because its literal name is a Lean keyword. -/
inductive FeedbackType where
  | correct
  | partialCorrect
  | wrong
deriving DecidableEq

/-- The string `.value` of each outcome, as compared by
`generate_feedback_report`. -/
def FeedbackType.value : FeedbackType → String
  | .correct => "correct"
  | .partialCorrect => "partial"
  | .wrong => "wrong"

/-- The delta table of `FeedbackAgent.reinforce_memory_from_feedback`:
`{CORRECT: 0.2, PARTIAL: 0.1, WRONG: -0.3}`. -/
def confidenceBoost : FeedbackType → ℚ
  | .correct => 2 / 10
  | .partialCorrect => 1 / 10
  | .wrong => -3 / 10

/-- Model of `clamp(x, 0.0, 1.0)`. -/
def clamp01 (x : ℚ) : ℚ := max 0 (min 1 x)

/-- Modelled from the spec: the per-record confidence update
`new = clamp(old + delta, 0, 1)` of the Reinforcement Controller (§4.5).
The stored confidence lives in the external vector database;
`MemoryAgent.reinforce_memory` in the source only logs the boost to the
audit trail, so the update itself is modelled from the spec, with the
deltas taken from the source's feedback agent. -/
def reinforceConfidence (old : ℚ) (ft : FeedbackType) : ℚ :=
  clamp01 (old + confidenceBoost ft)

/-- C2. The outcome deltas are `+0.2 / +0.1 / -0.3`, the new confidence is
the clamped sum, `Correct` then `Wrong` from `0.5` yields `0.4`, `Wrong`
from `0.1` clamps to `0`, and every reinforced confidence stays in
`[0, 1]` (never negative). -/
theorem reinforcement_clamp :
    (confidenceBoost .correct = 2 / 10
      ∧ confidenceBoost .partialCorrect = 1 / 10
      ∧ confidenceBoost .wrong = -(3 / 10))
    ∧ (∀ old : ℚ, ∀ ft : FeedbackType,
        reinforceConfidence old ft = clamp01 (old + confidenceBoost ft))
    ∧ reinforceConfidence (reinforceConfidence (1 / 2) .correct) .wrong
        = 4 / 10
    ∧ reinforceConfidence (1 / 10) .wrong = 0
    ∧ ∀ old : ℚ, ∀ ft : FeedbackType,
        0 ≤ reinforceConfidence old ft ∧ reinforceConfidence old ft ≤ 1 := by
  refine ⟨⟨rfl, rfl, by norm_num [confidenceBoost]⟩,
    fun old ft => rfl, ?_, ?_, fun old ft => ?_⟩
  · unfold reinforceConfidence confidenceBoost clamp01
    rw [show min 1 (1 / 2 + 2 / 10 : ℚ) = 1 / 2 + 2 / 10 by
        rw [min_eq_right]; norm_num,
      show max 0 (1 / 2 + 2 / 10 : ℚ) = 1 / 2 + 2 / 10 by
        rw [max_eq_right]; norm_num]
    rw [show min 1 (1 / 2 + 2 / 10 + -3 / 10 : ℚ) = 1 / 2 + 2 / 10 + -3 / 10 by
        rw [min_eq_right]; norm_num]
    rw [max_eq_right (by norm_num)]
    norm_num
  · unfold reinforceConfidence confidenceBoost clamp01
    rw [show min 1 (1 / 10 + -3 / 10 : ℚ) = 1 / 10 + -3 / 10 by
        rw [min_eq_right]; norm_num]
    rw [max_eq_left (by norm_num)]
  · unfold reinforceConfidence clamp01
    exact ⟨le_max_left 0 _, max_le (by norm_num) (min_le_left 1 _)⟩

/-! ## Record store writes (C6) -/

/-- The write-time failure of the Record Store contract. -/
inductive StoreError where
  | DimensionMismatch
  | NotFound
deriving DecidableEq

/-- The durable unit of memory (spec §3). -/
structure VectorRecord where
  record_id : String
  owner_id : String
  dense_vector : List ℚ
  sparse_vector : List (Nat × ℚ)
  confidence : ℚ
deriving DecidableEq

/-- A Record Store collection: its configured dense dimension and the
stored records keyed by `record_id`. -/
structure RecordStore where
  dim : Nat
  records : List (String × VectorRecord)
deriving DecidableEq

/-- Modelled from the spec: `put(record)` of the Record Store (§4.3),
which fronts the external vector database that is not part of the source
tree (`MemoryAgent.store_embedding` only logs the write and returns
`True`). It rejects with `DimensionMismatch` when the dense vector length
disagrees with the collection's configured dimension; an accepted write is
last-write-wins on the record id. -/
def put (st : RecordStore) (r : VectorRecord) :
    Except StoreError RecordStore :=
  if r.dense_vector.length = st.dim then
    Except.ok { st with
      records := (r.record_id, r)
        :: st.records.filter (fun p => !(p.1 == r.record_id)) }
  else
    Except.error StoreError.DimensionMismatch

/-- C6. Every record whose dense vector length disagrees with the
collection's configured dimension is rejected with `DimensionMismatch`,
and no store state results from the write. -/
theorem put_dimension_mismatch (st : RecordStore) (r : VectorRecord)
    (h : r.dense_vector.length ≠ st.dim) :
    put st r = Except.error StoreError.DimensionMismatch
    ∧ ∀ st' : RecordStore, put st r ≠ Except.ok st' := by
  unfold put
  rw [if_neg h]
  exact ⟨rfl, fun st' hc => Except.noConfusion hc⟩

/-- Witness for C6: a 2-dimensional vector against a collection of
dimension 3 is rejected. -/
theorem put_dimension_mismatch_witness :
    (([(1 : ℚ), 0] : List ℚ).length ≠ 3)
    ∧ put ⟨3, []⟩ ⟨"r1", "p1", [(1 : ℚ), 0], [], 1 / 2⟩
        = Except.error StoreError.DimensionMismatch :=
  ⟨by decide,
   (put_dimension_mismatch ⟨3, []⟩ ⟨"r1", "p1", [(1 : ℚ), 0], [], 1 / 2⟩
      (by decide)).1⟩

/-! ## Reinforcement audit trail (C9) -/

/-- A Python dict value occurring in an audit entry. -/
inductive PyVal where
  | str (s : String)
  | num (q : ℚ)
deriving DecidableEq

/-- The audit entry dict appended by `MemoryAgent.reinforce_memory`:
`{"embedding_id", "feedback_type", "confidence_boost", "operation",
"timestamp", "reasoning"}` (source lines 310–319). It records the boost
(delta), not the old or new confidence, which the source never holds. -/
def reinforceAuditEntry (embedding_id feedback_type : String)
    (confidence_boost : ℚ) (timestamp reasoning : String) :
    List (String × PyVal) :=
  [("embedding_id", PyVal.str embedding_id),
   ("feedback_type", PyVal.str feedback_type),
   ("confidence_boost", PyVal.num confidence_boost),
   ("operation", PyVal.str "memory_reinforcement"),
   ("timestamp", PyVal.str timestamp),
   ("reasoning", PyVal.str reasoning)]

/-- Model of `MemoryAgent.reinforce_memory`: append one audit entry to
`self.audit_trail` and return `True`. -/
def reinforceMemory (trail : List (List (String × PyVal)))
    (embedding_id feedback_type : String) (confidence_boost : ℚ)
    (timestamp reasoning : String) :
    List (List (String × PyVal)) × Bool :=
  (trail ++ [reinforceAuditEntry embedding_id feedback_type
      confidence_boost timestamp reasoning],
   true)

/-- C9 counterexample: the audit entry appended by a concrete
reinforcement call carries no `old_confidence` or `new_confidence` field
(the source never tracks a stored confidence), contradicting the claimed
entry contents; it carries the record id and the boost instead. -/
theorem audit_entry_counterexample :
    (reinforceAuditEntry "emb-1" "correct" (2 / 10) "t0" "r").lookup
        "old_confidence" = none
    ∧ (reinforceAuditEntry "emb-1" "correct" (2 / 10) "t0" "r").lookup
        "new_confidence" = none
    ∧ (reinforceAuditEntry "emb-1" "correct" (2 / 10) "t0" "r").lookup
        "embedding_id" = some (PyVal.str "emb-1") :=
  ⟨rfl, rfl, rfl⟩

/-- C9 (amended). Every reinforcement call appends exactly one audit entry
containing the record id (`embedding_id`), the outcome (`feedback_type`),
the confidence delta (`confidence_boost`) — not the old and new confidence
— an operation tag and a timestamp, and leaves all previously appended
entries unchanged. -/
theorem audit_append_only (trail : List (List (String × PyVal)))
    (eid ft : String) (boost : ℚ) (ts rs : String) :
    (reinforceMemory trail eid ft boost ts rs).2 = true
    ∧ (reinforceMemory trail eid ft boost ts rs).1.length = trail.length + 1
    ∧ (reinforceMemory trail eid ft boost ts rs).1.take trail.length = trail
    ∧ (reinforceMemory trail eid ft boost ts rs).1.getLast?
        = some (reinforceAuditEntry eid ft boost ts rs)
    ∧ (reinforceAuditEntry eid ft boost ts rs).lookup "embedding_id"
        = some (PyVal.str eid)
    ∧ (reinforceAuditEntry eid ft boost ts rs).lookup "feedback_type"
        = some (PyVal.str ft)
    ∧ (reinforceAuditEntry eid ft boost ts rs).lookup "confidence_boost"
        = some (PyVal.num boost)
    ∧ (reinforceAuditEntry eid ft boost ts rs).lookup "timestamp"
        = some (PyVal.str ts)
    ∧ (reinforceAuditEntry eid ft boost ts rs).lookup "operation"
        = some (PyVal.str "memory_reinforcement") := by
  refine ⟨rfl, ?_, ?_, ?_, rfl, rfl, rfl, rfl, rfl⟩
  · simp [reinforceMemory]
  · simp [reinforceMemory, List.take_left]
  · simp [reinforceMemory]

end Convolve
